import Mathlib

/-!
Verification of the Catalog Extraction & Ranking Engine of the
Amazon_Scarpper repository (src/Amazon_Scarpper.py).

The engine's pure parts are embedded shallowly:

* `parse_price_text` (lines 79-98): the Price Normalizer.  Python strings
  are Lean `String`s; `re.search(r"[\d\.,]+", ·)` becomes `firstRun`
  (leftmost maximal block of digit/dot/comma characters, with `\d`
  modelled as ASCII digits); `float(raw)` wrapped in `try/except` becomes
  `floatOfRun`, returning `Option ℚ`.
* the per-category loop of `get_best_sellers` (lines 137-206): candidates
  (one per matched node, fields already resolved through their fallback
  chains) flow through name check, duplicate suppression keyed on
  `(name[:80], url)`, the price ceiling, and dict construction.
* `scrape_all_categories` (lines 221-232): concatenation of per-category
  results, each stamped with its category label.
* the ranking views built with `pandas.DataFrame.nsmallest` on the
  `Price (₹)` column (lines 335, 346-347).

Prices are modelled as exact rationals; CPython's `str` on floats is
modelled by `strFloat` for values whose decimal expansion is exact.
-/

namespace AmazonScrapper

/-! Price Normalizer: `parse_price_text` -/

/-- Characters matched by the class `[\d\.,]` in
`re.search(r"[\d\.,]+", ...)` (line 90): ASCII digits, dot, comma. -/
def isPriceChar (c : Char) : Bool := c.isDigit || c == '.' || c == ','

/-- Numeric value of a decimal digit character. -/
def digitVal (c : Char) : ℕ := c.toNat - 48

/-- Value of a big-endian list of decimal digit characters. -/
def digitsToNat (ds : List Char) : ℕ := ds.foldl (fun a c => 10 * a + digitVal c) 0

/-- The match of `re.search(r"[\d\.,]+", text)`: the leftmost maximal
run of digit/dot/comma characters, if any. -/
def firstRun : List Char → Option (List Char)
  | [] => none
  | c :: cs => if isPriceChar c then some (c :: cs.takeWhile isPriceChar) else firstRun cs

/-- Decimal value denoted by a digit/dot string: integer part before the
first dot, fractional part after it. -/
def runValue (s : List Char) : ℚ :=
  let I := s.takeWhile (fun c => c != '.')
  let F := (s.dropWhile (fun c => c != '.')).drop 1
  (digitsToNat I : ℚ) + (digitsToNat F : ℚ) / 10 ^ F.length

/-- Models `float(raw)` under the surrounding `try/except: return None`
(lines 95-98), on the digit/dot alphabet that `parse_price_text` feeds it
(the comma-free remains of a `[\d\.,]+` match): CPython accepts such a
string exactly when it contains at least one digit and at most one dot.
Strings outside that alphabet are rejected here; no call site produces
them. -/
def floatOfRun (s : List Char) : Option ℚ :=
  if s.all (fun c => c.isDigit || c == '.') ∧ s.any (fun c => c.isDigit) ∧ s.count '.' ≤ 1
  then some (runValue s) else none

/-- Models `price_text.replace("₹", "")` (line 90): remove every rupee sign. -/
def stripCurrency (s : String) : List Char := s.data.filter (fun c => c != '₹')

/-- Shallow embedding of `parse_price_text` (lines 79-98): empty input is
rejected up front (`if not price_text`), then the first digit/dot/comma
run is located, commas are removed from it, and the rest is parsed as a
decimal number; any failure yields `none`. -/
def parse_price_text (s : String) : Option ℚ :=
  if s = "" then none
  else
    match firstRun (stripCurrency s) with
    | none => none
    | some raw => floatOfRun (raw.filter (fun c => c != ','))

/-! Records, Deduplicator and Category Filter -/

/-- A candidate product record as it stands between the field-resolution
part of the `get_best_sellers` loop and the duplicate/price gates:
`name` is resolved (nonempty guard applied later at the gate that models
`if not name: continue` is not needed here because `dedupe` and the
filter are exercised on post-name-check records), `price` is the outcome
of the Price Normalizer, `url` is `url_val` (absent when no link
resolved), `rating` the rating tag text. -/
structure PRecord where
  name : String
  price : Option ℚ
  rating : Option String
  url : Option String
deriving DecidableEq

/-- Models `uniq = (name[:80], url_val)` (line 180): the deduplication key. -/
def dedupKey (r : PRecord) : List Char × Option String := (r.name.data.take 80, r.url)

/-- The duplicate-suppression mechanism of lines 179-183 in isolation
(the spec's Deduplicator): walk the records keeping a `seen` set of keys;
a record whose key was already seen is skipped, otherwise it is kept and
its key recorded. -/
def dedupeAux (seen : List (List Char × Option String)) : List PRecord → List PRecord
  | [] => []
  | r :: rs =>
    if dedupKey r ∈ seen then dedupeAux seen rs
    else r :: dedupeAux (dedupKey r :: seen) rs

def dedupe (rs : List PRecord) : List PRecord := dedupeAux [] rs

/-- The two candidates of the C3 scenario: both resolve to name
`"Widget"` and url `"https://site/dp/ABC"`. -/
def widget₁ : PRecord :=
  { name := "Widget", price := some 100, rating := some "4.0", url := some "https://site/dp/ABC" }

def widget₂ : PRecord :=
  { name := "Widget", price := some 120, rating := none, url := some "https://site/dp/ABC" }

/-- The drop test of line 193-195: a record is dropped when its price is
absent or strictly greater than the threshold. -/
def priceDropB (t : ℚ) (r : PRecord) : Bool :=
  match r.price with
  | none => true
  | some p => decide (t < p)

/-- The spec's Category Filter restricted to its price gate (lines
193-195): keep exactly the records not hit by the drop test, in order.
(Category stamping happens in `scrape_all_categories`, modelled there.) -/
def categoryFilter (t : ℚ) (rs : List PRecord) : List PRecord :=
  rs.filter (fun r => !priceDropB t r)

/-- The records of the C1 scenario: prices 499, 501, 500. -/
def rec499 : PRecord := { name := "A", price := some 499, rating := none, url := none }

def rec501 : PRecord := { name := "B", price := some 501, rating := none, url := none }

def rec500 : PRecord := { name := "C", price := some 500, rating := none, url := none }

/-- The claim's keep condition, in the spec's own words: the price is
present and at most the threshold. -/
def keepSpec (t : ℚ) (r : PRecord) : Prop := ∃ p, r.price = some p ∧ p ≤ t

instance (t : ℚ) (r : PRecord) : Decidable (keepSpec t r) :=
  decidable_of_iff (∃ p ∈ r.price, p ≤ t) (by
    unfold keepSpec
    rcases r.price with _ | p <;> simp)

/-! The per-category loop of `get_best_sellers` (lines 137-206) -/

/-- One candidate node of the document, with its four sub-fields already
resolved through their fallback chains (lines 148-191): `name` is the
title/link text (`none` when neither resolves, `some ""` possible for an
empty text node — both hit `if not name: continue`), `url` is `url_val`,
`price` the normalized price from the tag or the sibling scan, `rating`
the rating tag text. -/
structure Candidate where
  name : Option String
  url : Option String
  price : Option ℚ
  rating : Option String
deriving DecidableEq

/-- A finished entry of the `products` list (lines 199-204). -/
structure Product where
  productName : String
  price : ℚ
  rating : String
  url : String
deriving DecidableEq

/-- The `(name[:80], url_val)` key a candidate would contribute to
`seen`, when its name resolves to a non-empty string. -/
def resolvedKey (c : Candidate) : Option (List Char × Option String) :=
  match c.name with
  | none => none
  | some n => if n = "" then none else some (n.data.take 80, c.url)

/-- The body of the `for node in product_nodes` loop (lines 146-206):
skip when no name resolves (`if not name: continue`), then the duplicate
gate around `seen` (lines 179-183), then the price gate (lines 186-195),
and finally the dict append (lines 197-204) with the `"N/A"` defaults for
rating and url. -/
def bestSellersLoop (maxPrice : ℚ) (seen : List (List Char × Option String)) :
    List Candidate → List Product
  | [] => []
  | c :: cs =>
    match c.name with
    | none => bestSellersLoop maxPrice seen cs
    | some n =>
      if n = "" then bestSellersLoop maxPrice seen cs
      else
        let uniq := (n.data.take 80, c.url)
        if uniq ∈ seen then bestSellersLoop maxPrice seen cs
        else
          match c.price with
          | none => bestSellersLoop maxPrice (uniq :: seen) cs
          | some p =>
            if maxPrice < p then bestSellersLoop maxPrice (uniq :: seen) cs
            else
              { productName := n, price := p,
                rating := c.rating.getD "N/A",
                url := c.url.getD "N/A" } :: bestSellersLoop maxPrice (uniq :: seen) cs

/-- Embedding of `get_best_sellers` after node collection: run the loop with an empty
`seen` set and an empty `products` list. -/
def get_best_sellers (maxPrice : ℚ) (cands : List Candidate) : List Product :=
  bestSellersLoop maxPrice [] cands

/-- The `seen` set after the loop has processed a list of candidates:
a candidate whose name resolves to a non-empty string contributes its
`(name[:80], url)` key exactly when the key is new (line 183), whether
or not the price gate later drops it — the same update `bestSellersLoop`
performs. -/
def seenAfter (seen : List (List Char × Option String)) :
    List Candidate → List (List Char × Option String)
  | [] => seen
  | c :: cs =>
    match c.name with
    | none => seenAfter seen cs
    | some n =>
      if n = "" then seenAfter seen cs
      else
        let uniq := (n.data.take 80, c.url)
        if uniq ∈ seen then seenAfter seen cs
        else seenAfter (uniq :: seen) cs

/-- The two candidates of the C10 scenario: same key, the first with an
over-threshold price, the second affordable. -/
def cand₁ : Candidate :=
  { name := some "Widget", url := some "https://site/dp/ABC", price := some 700, rating := none }

def cand₂ : Candidate :=
  { name := some "Widget", url := some "https://site/dp/ABC", price := some 300, rating := none }

/-- An unrelated candidate standing between the two same-key candidates
of the C10 scenario (no price, so it contributes nothing itself). -/
def candMid : Candidate :=
  { name := some "Other", url := some "https://site/dp/XYZ", price := none, rating := none }

/-! `scrape_all_categories` (lines 221-232) -/

/-- A product record after `it["Category"] = cat_name` (line 228). -/
structure TaggedProduct extends Product where
  category : String
deriving DecidableEq

/-- The category stamping of line 228. -/
def stampCategory (cat : String) (p : Product) : TaggedProduct := { p with category := cat }

/-- The `all_items` accumulation of `scrape_all_categories` (lines
222-231): for each category, in order, stamp that category's
`get_best_sellers` result and extend the accumulator. The per-category
result lists are the function's input family here, exactly as the claim
quantifies over them. -/
def scrapeAllAux (acc : List TaggedProduct) :
    List (String × List Product) → List TaggedProduct
  | [] => acc
  | (cat, items) :: rest => scrapeAllAux (acc ++ items.map (stampCategory cat)) rest

def scrape_all_categories (results : List (String × List Product)) : List TaggedProduct :=
  scrapeAllAux [] results

/-- The product of the C9 scenario, appearing under two categories. -/
def gadget : Product := { productName := "Gadget", price := 250, rating := "4.2", url := "u" }

/-! Ranking: `nsmallest` on the price column (lines 335, 346-347) -/

/-- Ascending comparison on the `Price (₹)` column. -/
def priceLE (a b : TaggedProduct) : Bool := decide (a.price ≤ b.price)

/-- Models `DataFrame.nsmallest(n, "Price (₹)")` from pandas' documented
behaviour (the catalog rows all carry parsed prices, so `dropna` is a
no-op): with the default `keep='first'`, ties are resolved toward
earlier rows via a stable ascending sort, the first `n` rows are
returned, and `n ≤ 0` yields an empty frame rather than an error. -/
def nsmallest (n : ℤ) (catalog : List TaggedProduct) : List TaggedProduct :=
  if n ≤ 0 then [] else (catalog.mergeSort priceLE).take n.toNat

/-- The spec's `rankCheapest(catalog, n)`, realized by the source as
`nsmallest` on the aggregated frame. -/
def rankCheapest (catalog : List TaggedProduct) (n : ℤ) : List TaggedProduct :=
  nsmallest n catalog

/-- The C4/C5 scenario catalog: three records, two of them tied on price. -/
def tgA : TaggedProduct := { productName := "a", price := 10, rating := "r", url := "u", category := "X" }

def tgB : TaggedProduct := { productName := "b", price := 20, rating := "r", url := "u", category := "X" }

def tgC : TaggedProduct := { productName := "c", price := 10, rating := "r", url := "u", category := "Y" }

/-! CPython `str` on floats, for exact decimal values

`parse_price_text` only ever produces non-negative values whose
denominator divides a power of ten.  For such values below `10^16` and
at least `10^-4` (or zero), CPython's `str` renders the float in
positional notation and the shortest-repr guarantee makes the rendering
exact; `strFloat` reproduces that rendering from the exact rational.
Outside that range `str` switches to exponent notation (`1e-05`,
`1e+16`, ...), reproduced by `sciString`. -/

/-- Little-endian decimal digits of `n`; the first argument is fuel,
making the recursion structural so the kernel can evaluate it. -/
def digitsLE : ℕ → ℕ → List ℕ
  | 0, _ => []
  | fuel + 1, n => if n = 0 then [] else n % 10 :: digitsLE fuel (n / 10)

/-- Big-endian decimal digit characters of `n` (empty for `n = 0`). -/
def natDigits (n : ℕ) : List Char := ((digitsLE n n).reverse).map Nat.digitChar

/-- Number of multiplications by ten needed before the denominator
clears; fuel-driven (structural), started at the denominator itself,
which suffices whenever some power of ten clears it. -/
def decScaleGo : ℕ → ℚ → ℕ
  | 0, _ => 0
  | fuel + 1, q => if q.den = 1 then 0 else decScaleGo fuel (q * 10) + 1

/-- Number of digits after the decimal point in the exact positional
rendering of `q` (meaningful when `q.den` divides a power of ten). -/
def decScale (q : ℚ) : ℕ := decScaleGo q.den q

/-- Big-endian digits of `N` with a decimal point `s` places from the
right (zero-padded as needed, `".0"` appended when `s = 0`): the
positional rendering CPython uses for floats in `[10^-4, 10^16)`. -/
def posRender (N s : ℕ) : List Char :=
  if s = 0 then natDigits N ++ ['.', '0']
  else
    let padded := List.replicate (s + 1 - (natDigits N).length) '0' ++ natDigits N
    padded.take (padded.length - s) ++ '.' :: padded.drop (padded.length - s)

/-- Positional `str` of a positive exact decimal. -/
def posString (q : ℚ) : List Char :=
  posRender (q * 10 ^ decScale q).num.toNat (decScale q)

/-- Exponent-notation `str` of a positive exact decimal (CPython's
rendering outside the positional range): mantissa digits with trailing
zeros stripped, `e`, a sign, and a two-digit-padded exponent. -/
def sciString (q : ℚ) : List Char :=
  let s := decScale q
  let ds := natDigits (q * 10 ^ s).num.toNat
  let m := (ds.reverse.dropWhile (fun c => c == '0')).reverse
  let e : ℤ := (ds.length : ℤ) - 1 - (s : ℤ)
  let mant := match m with
    | [] => ['0']
    | d :: rest => if rest = [] then [d] else d :: '.' :: rest
  let eAbs := natDigits e.natAbs
  let ePad := if eAbs.length < 2 then List.replicate (2 - eAbs.length) '0' ++ eAbs else eAbs
  mant ++ 'e' :: (if e < 0 then '-' else '+') :: ePad

def posOrSci (q : ℚ) : List Char :=
  if 1 / 10000 ≤ q ∧ q < 10 ^ 16 then posString q else sciString q

/-- Models CPython's `str` on a float whose value is the exact decimal
`q`: positional notation for zero and for magnitudes in `[10^-4, 10^16)`
(where the shortest-repr guarantee makes `str` print the exact decimal),
exponent notation outside that range. -/
def strFloat (q : ℚ) : String :=
  if q = 0 then "0.0"
  else if q < 0 then ⟨'-' :: posOrSci (-q)⟩
  else ⟨posOrSci q⟩

/-! Lemmas and claim theorems -/

lemma parse_price_text_some_run (s : String) (raw : List Char) (hne : ¬ s = "")
    (hrun : firstRun (stripCurrency s) = some raw) :
    parse_price_text s = floatOfRun (raw.filter (fun c => c != ',')) := by
  unfold parse_price_text
  rw [if_neg hne, hrun]

lemma parse_price_text_no_run (s : String) (hrun : firstRun (stripCurrency s) = none) :
    parse_price_text s = none := by
  unfold parse_price_text
  rw [hrun]
  split <;> rfl

/-- Scenario: `parse_price_text "₹ 1,199.50" = some (2399/2)`, i.e. `1199.50`. -/
lemma parse_rupee_1199_50 : parse_price_text "₹ 1,199.50" = some (2399 / 2 : ℚ) := by
  rw [parse_price_text_some_run _ ("1,199.50".data) (by decide) (by decide)]
  have hfil : "1,199.50".data.filter (fun c => c != ',') = "1199.50".data := by decide
  rw [hfil]
  unfold floatOfRun
  rw [if_pos (by decide)]
  unfold runValue
  have h1 : "1199.50".data.takeWhile (fun c => c != '.') = "1199".data := by decide
  have h2 : ("1199.50".data.dropWhile (fun c => c != '.')).drop 1 = "50".data := by decide
  rw [h1, h2]
  have h3 : digitsToNat "1199".data = 1199 := by decide
  have h4 : digitsToNat "50".data = 50 := by decide
  norm_num [h3, h4]

/-- C6: the two scenarios of the Price Normalizer: `"₹ 1,199.50"`
normalizes to `1199.50`, and `"no price here"` normalizes to absent. -/
theorem C6_normalizer_scenarios :
    parse_price_text "₹ 1,199.50" = some (2399 / 2 : ℚ) ∧
    parse_price_text "no price here" = none := by
  refine ⟨parse_rupee_1199_50, ?_⟩
  exact parse_price_text_no_run _ (by decide)

/-- C2, counterexample: on input `"v1.2.3"` the regex selects the run
`"1.2.3"`, which contains two decimal points, and the normalizer returns
absent — not the value `1.2` of the first digits-with-one-dot run that
the claim predicts. -/
theorem C2_counterexample :
    firstRun (stripCurrency "v1.2.3") = some "1.2.3".data ∧
    parse_price_text "v1.2.3" = none := by
  constructor
  · decide
  · rw [parse_price_text_some_run _ ("1.2.3".data) (by decide) (by decide)]
    have hfil : "1.2.3".data.filter (fun c => c != ',') = "1.2.3".data := by decide
    rw [hfil]
    unfold floatOfRun
    rw [if_neg (by decide)]

/-- C2, amended: the scanned run is the first maximal run of digits,
commas and dots with NO bound on the number of dots; when the run minus
its commas contains more than one decimal point, `float` fails and the
normalizer returns absent (so `"v1.2.3"` normalizes to absent). -/
theorem C2_amended_multi_dot_run_absent (s : String) (raw : List Char)
    (hrun : firstRun (stripCurrency s) = some raw)
    (hdots : 1 < (raw.filter (fun c => c != ',')).count '.') :
    parse_price_text s = none := by
  by_cases hne : s = ""
  · unfold parse_price_text
    rw [if_pos hne]
  · rw [parse_price_text_some_run s raw hne hrun]
    unfold floatOfRun
    rw [if_neg]
    rintro ⟨-, -, hle⟩
    omega

theorem C2_amended_witness : parse_price_text "v1.2.3" = none :=
  C2_amended_multi_dot_run_absent "v1.2.3" "1.2.3".data (by decide) (by decide)

/-- C7: the Price Normalizer is a total function into `Option`; it yields
absent exactly when the input is empty, no digit/dot/comma run exists, or
the comma-free run fails numeric parsing — absence is its only failure
signal. -/
theorem C7_normalizer_total_absent_iff (s : String) :
    parse_price_text s = none ↔
      (s = "" ∨ firstRun (stripCurrency s) = none ∨
        ∃ raw, firstRun (stripCurrency s) = some raw ∧
          floatOfRun (raw.filter (fun c => c != ',')) = none) := by
  unfold parse_price_text
  by_cases hne : s = ""
  · simp [hne]
  · rw [if_neg hne]
    rcases hrun : firstRun (stripCurrency s) with _ | raw
    · simp
    · simp only [hne, false_or]
      constructor
      · intro h
        exact Or.inr ⟨raw, rfl, h⟩
      · rintro (h | ⟨raw', hraw', h⟩)
        · exact absurd h (by simp)
        · rw [Option.some_inj] at hraw'
          rw [hraw']
          exact h

theorem C7_witness : parse_price_text "no price here" = none :=
  (C7_normalizer_total_absent_iff "no price here").mpr (Or.inr (Or.inl (by decide)))

lemma dedupeAux_sublist (seen : List (List Char × Option String)) (l : List PRecord) :
    (dedupeAux seen l).Sublist l := by
  induction l generalizing seen with
  | nil => simp [dedupeAux]
  | cons r rs ih =>
    rw [dedupeAux]
    split
    · exact (ih seen).trans (List.sublist_cons_self r rs)
    · exact (ih (dedupKey r :: seen)).cons₂ r

lemma dedupeAux_key_not_seen (seen : List (List Char × Option String))
    (l : List PRecord) (r : PRecord) (hr : r ∈ dedupeAux seen l) :
    dedupKey r ∉ seen := by
  induction l generalizing seen with
  | nil => simp [dedupeAux] at hr
  | cons x xs ih =>
    by_cases hk : dedupKey x ∈ seen
    · rw [dedupeAux, if_pos hk] at hr
      exact ih seen hr
    · rw [dedupeAux, if_neg hk] at hr
      rcases List.mem_cons.mp hr with hr | hr
      · subst hr; exact hk
      · intro hmem
        exact ih (dedupKey x :: seen) hr (List.mem_cons_of_mem _ hmem)

lemma dedupeAux_pairwise (seen : List (List Char × Option String)) (l : List PRecord) :
    (dedupeAux seen l).Pairwise (fun a b => dedupKey a ≠ dedupKey b) := by
  induction l generalizing seen with
  | nil => simp [dedupeAux]
  | cons x xs ih =>
    rw [dedupeAux]
    split
    · exact ih seen
    · refine List.Pairwise.cons ?_ (ih (dedupKey x :: seen))
      intro b hb heq
      exact dedupeAux_key_not_seen _ _ _ hb (heq ▸ List.mem_cons_self _ _)

lemma dedupeAux_first_kept (seen : List (List Char × Option String))
    (l₁ : List PRecord) (r : PRecord) (l₂ : List PRecord)
    (hseen : dedupKey r ∉ seen)
    (hfirst : ∀ x ∈ l₁, dedupKey x ≠ dedupKey r) :
    r ∈ dedupeAux seen (l₁ ++ r :: l₂) := by
  induction l₁ generalizing seen with
  | nil =>
    rw [List.nil_append, dedupeAux, if_neg hseen]
    exact List.mem_cons_self _ _
  | cons x xs ih =>
    rw [List.cons_append, dedupeAux]
    split
    · exact ih seen hseen (fun y hy => hfirst y (List.mem_cons_of_mem _ hy))
    · refine List.mem_cons_of_mem _ (ih (dedupKey x :: seen) ?_ ?_)
      · intro hmem
        rcases List.mem_cons.mp hmem with h | h
        · exact hfirst x (List.mem_cons_self _ _) h.symm
        · exact hseen h
      · exact fun y hy => hfirst y (List.mem_cons_of_mem _ hy)

/-- C3: the Deduplicator's output never contains two records with an
equal `(name[:80], url)` key, it is an in-order selection of the input
(so kept records appear in their original relative order), the first
record observed per key is kept, and the two same-key `"Widget"`
candidates collapse to the first one. -/
theorem C3_dedupe_spec :
    (∀ rs : List PRecord,
        (dedupe rs).Pairwise (fun a b => dedupKey a ≠ dedupKey b) ∧
        (dedupe rs).Sublist rs ∧
        (∀ l₁ r l₂, rs = l₁ ++ r :: l₂ →
          (∀ x ∈ l₁, dedupKey x ≠ dedupKey r) → r ∈ dedupe rs)) ∧
    dedupe [widget₁, widget₂] = [widget₁] := by
  constructor
  · intro rs
    refine ⟨dedupeAux_pairwise [] rs, dedupeAux_sublist [] rs, ?_⟩
    rintro l₁ r l₂ rfl hfirst
    exact dedupeAux_first_kept [] l₁ r l₂ (by simp) hfirst
  · decide

theorem C3_witness : widget₁ ∈ dedupe [widget₁, widget₂] :=
  (C3_dedupe_spec.1 [widget₁, widget₂]).2.2 [] widget₁ [widget₂] rfl (by simp)

lemma not_priceDropB_iff (t : ℚ) (r : PRecord) :
    (!priceDropB t r) = true ↔ ∃ p, r.price = some p ∧ p ≤ t := by
  unfold priceDropB
  rcases hp : r.price with _ | p <;> simp [not_lt]

/-- C1: the Category Filter keeps exactly the records whose price is
present and at most the threshold (the boundary `price = threshold`
passes), preserves relative order of survivors, and on prices
`[499, 501, 500]` with threshold `500` yields `[499, 500]`. -/
theorem C1_category_filter_spec :
    (∀ (t : ℚ) (rs : List PRecord),
        categoryFilter t rs = rs.filter (fun r => decide (keepSpec t r)) ∧
        (categoryFilter t rs).Sublist rs ∧
        (∀ r, r ∈ categoryFilter t rs ↔
          r ∈ rs ∧ ∃ p, r.price = some p ∧ p ≤ t)) ∧
    categoryFilter 500 [rec499, rec501, rec500] = [rec499, rec500] := by
  constructor
  · intro t rs
    refine ⟨?_, List.filter_sublist rs, ?_⟩
    · apply List.filter_congr
      intro r _
      rw [Bool.eq_iff_iff, not_priceDropB_iff, decide_eq_true_eq]
      exact Iff.rfl
    · intro r
      rw [categoryFilter, List.mem_filter, not_priceDropB_iff]
  · have h499 : (!priceDropB 500 rec499) = true := by
      rw [not_priceDropB_iff]; exact ⟨499, rfl, by norm_num⟩
    have h501 : (!priceDropB 500 rec501) = false := by
      have : priceDropB 500 rec501 = decide ((500 : ℚ) < 501) := rfl
      rw [this, decide_eq_true (by norm_num : (500 : ℚ) < 501)]
      rfl
    have h500 : (!priceDropB 500 rec500) = true := by
      rw [not_priceDropB_iff]; exact ⟨500, rfl, le_refl _⟩
    simp [categoryFilter, List.filter_cons, h499, h501, h500]

theorem C1_witness : rec500 ∈ categoryFilter 500 [rec499, rec501, rec500] :=
  ((C1_category_filter_spec.1 500 [rec499, rec501, rec500]).2.2 rec500).mpr
    ⟨by simp, 500, rfl, le_refl _⟩

lemma seenAfter_mem (seen : List (List Char × Option String)) (A : List Candidate)
    (k : List Char × Option String) (hk : k ∈ seen) : k ∈ seenAfter seen A := by
  induction A generalizing seen with
  | nil => exact hk
  | cons c A ih =>
    rcases hn : c.name with _ | n
    · simp only [seenAfter, hn]
      exact ih seen hk
    · by_cases hne : n = ""
      · simp only [seenAfter, hn, if_pos hne]
        exact ih seen hk
      · by_cases hmem : (n.data.take 80, c.url) ∈ seen
        · simp only [seenAfter, hn, if_neg hne, if_pos hmem]
          exact ih seen hk
        · simp only [seenAfter, hn, if_neg hne, if_neg hmem]
          exact ih _ (List.mem_cons_of_mem _ hk)

lemma seenAfter_not_mem (seen : List (List Char × Option String)) (A : List Candidate)
    (k : List Char × Option String) (hk : k ∉ seen)
    (hA : ∀ x ∈ A, resolvedKey x ≠ some k) : k ∉ seenAfter seen A := by
  induction A generalizing seen with
  | nil => exact hk
  | cons c A ih =>
    have hA' : ∀ x ∈ A, resolvedKey x ≠ some k :=
      fun x hx => hA x (List.mem_cons_of_mem _ hx)
    rcases hn : c.name with _ | n
    · simp only [seenAfter, hn]
      exact ih seen hk hA'
    · by_cases hne : n = ""
      · simp only [seenAfter, hn, if_pos hne]
        exact ih seen hk hA'
      · by_cases hmem : (n.data.take 80, c.url) ∈ seen
        · simp only [seenAfter, hn, if_neg hne, if_pos hmem]
          exact ih seen hk hA'
        · simp only [seenAfter, hn, if_neg hne, if_neg hmem]
          have hkey : resolvedKey c = some (n.data.take 80, c.url) := by
            simp only [resolvedKey, hn]
            rw [if_neg hne]
          refine ih _ ?_ hA'
          intro hmem2
          rcases List.mem_cons.mp hmem2 with h | h
          · exact hA c (List.mem_cons_self _ _) (hkey.trans (by rw [h]))
          · exact hk h

/-- Processing a concatenation: the tail block runs with the `seen` set
accumulated by the head block. -/
lemma bestSellersLoop_append (t : ℚ) (seen : List (List Char × Option String))
    (A B : List Candidate) :
    bestSellersLoop t seen (A ++ B) =
      bestSellersLoop t seen A ++ bestSellersLoop t (seenAfter seen A) B := by
  induction A generalizing seen with
  | nil => rfl
  | cons c A ih =>
    rw [List.cons_append]
    rcases hn : c.name with _ | n
    · simp only [bestSellersLoop, seenAfter, hn]
      exact ih seen
    · by_cases hne : n = ""
      · simp only [bestSellersLoop, seenAfter, hn, if_pos hne]
        exact ih seen
      · by_cases hmem : (n.data.take 80, c.url) ∈ seen
        · simp only [bestSellersLoop, seenAfter, hn, if_neg hne, if_pos hmem]
          exact ih seen
        · rcases hp : c.price with _ | p
          · simp only [bestSellersLoop, seenAfter, hn, if_neg hne, if_neg hmem, hp]
            exact ih _
          · by_cases ht : t < p
            · simp only [bestSellersLoop, seenAfter, hn, if_neg hne, if_neg hmem, hp,
                if_pos ht]
              exact ih _
            · simp only [bestSellersLoop, seenAfter, hn, if_neg hne, if_neg hmem, hp,
                if_neg ht]
              rw [ih _, List.cons_append]

/-- A candidate whose key is already in `seen` is skipped whole. -/
lemma bestSellersLoop_skip_dup (t : ℚ) (seen : List (List Char × Option String))
    (c : Candidate) (X : List Candidate) (k : List Char × Option String)
    (hk : resolvedKey c = some k) (hmem : k ∈ seen) :
    bestSellersLoop t seen (c :: X) = bestSellersLoop t seen X := by
  rcases hn : c.name with _ | n
  · simp [resolvedKey, hn] at hk
  · simp only [resolvedKey, hn] at hk
    by_cases hne : n = ""
    · rw [if_pos hne] at hk; exact absurd hk (by simp)
    · rw [if_neg hne, Option.some_inj] at hk
      simp only [bestSellersLoop, hn, if_neg hne, hk, if_pos hmem]

/-- A candidate with a fresh key but a missing or over-threshold price
contributes no product, yet records its key in `seen`. -/
lemma bestSellersLoop_drop_bad (t : ℚ) (seen : List (List Char × Option String))
    (c : Candidate) (X : List Candidate) (k : List Char × Option String)
    (hk : resolvedKey c = some k) (hnew : k ∉ seen)
    (hbad : c.price = none ∨ ∃ p, c.price = some p ∧ t < p) :
    bestSellersLoop t seen (c :: X) = bestSellersLoop t (k :: seen) X := by
  rcases hn : c.name with _ | n
  · simp [resolvedKey, hn] at hk
  · simp only [resolvedKey, hn] at hk
    by_cases hne : n = ""
    · rw [if_pos hne] at hk; exact absurd hk (by simp)
    · rw [if_neg hne, Option.some_inj] at hk
      simp only [bestSellersLoop, hn, if_neg hne, hk, if_neg hnew]
      rcases hbad with hb | ⟨p, hp, htp⟩
      · simp only [hb]
      · simp only [hp]
        rw [if_pos htp]

/-- C10: in the per-category pipeline the dedup key is recorded *before*
the price gate.  For any document `pre ++ c₁ :: mid ++ c₂ :: post` in
which `c₁` is the first candidate carrying its key (no candidate of
`pre` resolves to that key, and the key is not already seen), `c₁`'s
price is missing or over the threshold, and the later candidate `c₂` —
separated from `c₁` by arbitrary intervening nodes `mid` — carries the
same key with a parseable price within the threshold, then neither of
the two contributes a product: the output is the prefix's products
followed by those of `mid ++ post` run with the key marked seen; `c₁`
only records the key and `c₂` is discarded as a duplicate of the
already-dropped `c₁`. -/
theorem C10_dedup_before_price_filter (t : ℚ)
    (seen : List (List Char × Option String))
    (pre mid post : List Candidate) (c₁ c₂ : Candidate)
    (k : List Char × Option String) (p₂ : ℚ)
    (hk₁ : resolvedKey c₁ = some k)
    (hseen : k ∉ seen)
    (hpre : ∀ x ∈ pre, resolvedKey x ≠ some k)
    (hbad : c₁.price = none ∨ ∃ p, c₁.price = some p ∧ t < p)
    (hk₂ : resolvedKey c₂ = some k)
    (hp₂ : c₂.price = some p₂) (hle : p₂ ≤ t) :
    bestSellersLoop t seen (pre ++ c₁ :: mid ++ c₂ :: post) =
      bestSellersLoop t seen pre ++
        bestSellersLoop t (k :: seenAfter seen pre) (mid ++ post) := by
  have hS : k ∉ seenAfter seen pre := seenAfter_not_mem seen pre k hseen hpre
  rw [List.append_assoc, List.cons_append,
    bestSellersLoop_append t seen pre (c₁ :: (mid ++ c₂ :: post))]
  congr 1
  rw [bestSellersLoop_drop_bad t _ c₁ _ k hk₁ hS hbad,
    bestSellersLoop_append t _ mid (c₂ :: post),
    bestSellersLoop_skip_dup t _ c₂ post k hk₂
      (seenAfter_mem _ mid k (List.mem_cons_self _ _)),
    ← bestSellersLoop_append t _ mid post]

theorem C10_witness : get_best_sellers 500 [cand₁, candMid, cand₂] = [] := by
  rw [get_best_sellers,
    show ([cand₁, candMid, cand₂] : List Candidate) =
      [] ++ cand₁ :: [candMid] ++ cand₂ :: [] from rfl,
    C10_dedup_before_price_filter 500 [] [] [candMid] [] cand₁ cand₂
      ("Widget".data.take 80, some "https://site/dp/ABC") 300
      (by decide) (by simp) (by simp)
      (Or.inr ⟨700, rfl, by norm_num⟩)
      (by decide) rfl (by norm_num)]
  decide

lemma scrapeAllAux_eq (acc : List TaggedProduct) (results : List (String × List Product)) :
    scrapeAllAux acc results =
      acc ++ results.flatMap (fun cr => cr.2.map (stampCategory cr.1)) := by
  induction results generalizing acc with
  | nil => simp [scrapeAllAux]
  | cons cr rest ih =>
    rcases cr with ⟨cat, items⟩
    rw [scrapeAllAux, ih]
    simp

/-- C9: the Catalog Aggregator's output is exactly the concatenation of
the per-category filtered sequences in category-processing order, each
record stamped with its category's label; there is no cross-category
deduplication, so one product under two categories yields two catalog
records. -/
theorem C9_aggregator_concat :
    (∀ results : List (String × List Product),
        scrape_all_categories results =
          results.flatMap (fun cr => cr.2.map (stampCategory cr.1))) ∧
    scrape_all_categories [("Books", [gadget]), ("Toys & Games", [gadget])] =
      [stampCategory "Books" gadget, stampCategory "Toys & Games" gadget] := by
  constructor
  · intro results
    rw [scrape_all_categories, scrapeAllAux_eq, List.nil_append]
  · rfl

lemma priceLE_trans : ∀ a b c : TaggedProduct,
    priceLE a b = true → priceLE b c = true → priceLE a c = true := by
  intro a b c hab hbc
  rw [priceLE, decide_eq_true_eq] at *
  exact le_trans hab hbc

lemma priceLE_total : ∀ a b : TaggedProduct, (priceLE a b || priceLE b a) = true := by
  intro a b
  rcases le_total a.price b.price with h | h
  · rw [priceLE, decide_eq_true h, Bool.true_or]
  · rw [priceLE, priceLE, decide_eq_true h, Bool.or_true]

/-- C4: for a non-negative count `n`, `rankCheapest` returns
`min n |catalog|` records, sorted ascending by price, with ties kept in
original arrival order (its restriction to any fixed price is a prefix of
the catalog's records of that price, in catalog order); asking for 12
records from a 3-record catalog returns all 3 (the tied pair in arrival
order), never an error. -/
theorem C4_rankCheapest_spec :
    (∀ (catalog : List TaggedProduct) (n : ℕ),
        (rankCheapest catalog n).length = min n catalog.length ∧
        (rankCheapest catalog n).Pairwise (fun a b => a.price ≤ b.price) ∧
        (∀ p : ℚ,
          (rankCheapest catalog n).filter (fun r => decide (r.price = p)) <+:
            catalog.filter (fun r => decide (r.price = p)))) ∧
    rankCheapest [tgA, tgB, tgC] 12 = [tgA, tgC, tgB] := by
  constructor
  · intro catalog n
    rcases Nat.eq_zero_or_pos n with hn | hn
    · subst hn
      refine ⟨?_, ?_, ?_⟩
      · rw [rankCheapest, nsmallest, if_pos (by norm_num)]
        simp
      · rw [rankCheapest, nsmallest, if_pos (by norm_num)]
        exact List.Pairwise.nil
      · intro p
        rw [rankCheapest, nsmallest, if_pos (by norm_num)]
        exact List.nil_prefix
    · have hpos : ¬ ((n : ℤ) ≤ 0) := by exact_mod_cast Nat.not_le.mpr hn
      have hrank : rankCheapest catalog n = (catalog.mergeSort priceLE).take n := by
        rw [rankCheapest, nsmallest, if_neg hpos, Int.toNat_natCast]
      refine ⟨?_, ?_, ?_⟩
      · rw [hrank, List.length_take, (List.mergeSort_perm catalog priceLE).length_eq]
      · rw [hrank]
        have hsorted := List.sorted_mergeSort priceLE_trans priceLE_total catalog
        have := hsorted.sublist (List.take_sublist n _)
        exact this.imp (fun h => by rwa [priceLE, decide_eq_true_eq] at h)
      · intro p
        rw [hrank]
        have hA : (catalog.filter (fun r => decide (r.price = p))).Sublist
            (catalog.mergeSort priceLE) := by
          refine List.sublist_mergeSort priceLE_trans priceLE_total ?_
            (List.filter_sublist catalog)
          refine List.pairwise_of_forall_mem_list ?_
          intro a ha b hb
          rw [List.mem_filter, decide_eq_true_eq] at ha hb
          rw [priceLE, decide_eq_true_eq, ha.2, hb.2]
        have heq : (catalog.mergeSort priceLE).filter (fun r => decide (r.price = p)) =
            catalog.filter (fun r => decide (r.price = p)) := by
          have hsub := List.Sublist.filter (fun r => decide (r.price = p)) hA
          rw [List.filter_filter] at hsub
          have hself : (catalog.filter (fun r => decide (r.price = p))).filter
              (fun r => decide (r.price = p)) =
              catalog.filter (fun r => decide (r.price = p)) := by
            rw [List.filter_eq_self]
            intro a ha
            exact (List.mem_filter.mp ha).2
          have hperm := ((List.mergeSort_perm catalog priceLE).filter
            (fun r => decide (r.price = p))).symm
          refine (List.Sublist.eq_of_length ?_ ?_).symm
          · simpa [List.filter_filter, Bool.and_self] using hsub
          · exact hperm.length_eq
        calc ((catalog.mergeSort priceLE).take n).filter (fun r => decide (r.price = p))
            <+: (catalog.mergeSort priceLE).filter (fun r => decide (r.price = p)) :=
              List.IsPrefix.filter _ (List.take_prefix n _)
          _ = catalog.filter (fun r => decide (r.price = p)) := heq
  · have hAB : priceLE tgA tgB = true := decide_eq_true (by norm_num [tgA, tgB])
    have hAC : priceLE tgA tgC = true := decide_eq_true (by norm_num [tgA, tgC])
    have hBC : priceLE tgB tgC = false := by
      have : ¬ (tgB.price ≤ tgC.price) := by norm_num [tgB, tgC]
      exact decide_eq_false this
    rw [rankCheapest, nsmallest, if_neg (by norm_num)]
    simp [List.mergeSort, hAB, hAC, hBC]

/-- C5, counterexample: programmer-error-class misuse does NOT raise: the
price gate run with the negative threshold `-1` on a record priced 499
silently returns the empty result, and `nsmallest` with the negative
count `-3` silently returns the empty frame — both plain values, no
fault. -/
theorem C5_counterexample :
    categoryFilter (-1) [rec499] = [] ∧ rankCheapest [tgA] (-3) = [] := by
  constructor
  · have h : (!priceDropB (-1) rec499) = false := by
      have : priceDropB (-1) rec499 = decide ((-1 : ℚ) < 499) := rfl
      rw [this, decide_eq_true (by norm_num : (-1 : ℚ) < 499)]
      rfl
    simp [categoryFilter, List.filter_cons, h]
  · rw [rankCheapest, nsmallest, if_pos (by norm_num)]

/-- C5, amended: the core never raises at all — not for malformed or
sparse input, and not for programmer-error-class misuse either: a
negative threshold makes the price gate silently drop every record with
a (non-negative) parsed price, and a non-positive rank count makes
`nsmallest` silently return the empty sequence. -/
theorem C5_amended_never_raises :
    (∀ (t : ℚ) (rs : List PRecord), t < 0 →
      (∀ r ∈ rs, ∀ p, r.price = some p → 0 ≤ p) → categoryFilter t rs = []) ∧
    (∀ (catalog : List TaggedProduct) (n : ℤ), n ≤ 0 → rankCheapest catalog n = []) := by
  constructor
  · intro t rs ht hpos
    rw [categoryFilter, List.filter_eq_nil_iff]
    intro r hr
    have hdrop : priceDropB t r = true := by
      unfold priceDropB
      rcases hp : r.price with _ | p
      · rfl
      · exact decide_eq_true (lt_of_lt_of_le ht (hpos r hr p hp))
    rw [hdrop]
    simp
  · intro catalog n hn
    rw [rankCheapest, nsmallest, if_pos hn]

theorem C5_amended_witness :
    categoryFilter (-5) [rec501] = [] ∧ rankCheapest [] (-1) = [] :=
  ⟨C5_amended_never_raises.1 (-5) [rec501] (by norm_num)
      (by rintro r hr p hp
          rcases List.mem_singleton.mp hr with rfl
          rw [show rec501.price = some 501 from rfl, Option.some_inj] at hp
          rw [← hp]
          norm_num),
    C5_amended_never_raises.2 [] (-1) (by norm_num)⟩

lemma digitsLE_eq_digits : ∀ fuel n, n ≤ fuel → digitsLE fuel n = Nat.digits 10 n := by
  intro fuel
  induction fuel with
  | zero =>
    intro n hn
    interval_cases n
    simp [digitsLE]
  | succ f ih =>
    intro n hn
    rw [digitsLE]
    by_cases h0 : n = 0
    · subst h0; simp
    · rw [if_neg h0, Nat.digits_def' (by norm_num : 1 < 10) (Nat.pos_of_ne_zero h0)]
      congr 1
      have hlt : n / 10 < n := Nat.div_lt_self (Nat.pos_of_ne_zero h0) (by norm_num)
      exact ih (n / 10) (by omega)

lemma digitVal_digitChar (d : ℕ) (hd : d < 10) : digitVal (Nat.digitChar d) = d := by
  interval_cases d <;> rfl

lemma digitChar_isDigit (d : ℕ) (hd : d < 10) : (Nat.digitChar d).isDigit = true := by
  interval_cases d <;> decide

lemma foldl_digitsToNat (B : List Char) (a : ℕ) :
    B.foldl (fun x c => 10 * x + digitVal c) a = a * 10 ^ B.length + digitsToNat B := by
  induction B generalizing a with
  | nil => simp [digitsToNat]
  | cons c B ih =>
    rw [List.foldl_cons, ih (10 * a + digitVal c)]
    have h0 : digitsToNat (c :: B) =
        List.foldl (fun x c => 10 * x + digitVal c) (10 * 0 + digitVal c) B := rfl
    rw [h0, ih (10 * 0 + digitVal c), List.length_cons]
    ring

lemma digitsToNat_append (A B : List Char) :
    digitsToNat (A ++ B) = digitsToNat A * 10 ^ B.length + digitsToNat B := by
  rw [digitsToNat, List.foldl_append, foldl_digitsToNat]
  rfl

lemma digitsToNat_map_reverse (L : List ℕ) (hL : ∀ d ∈ L, d < 10) :
    digitsToNat ((L.reverse).map Nat.digitChar) = Nat.ofDigits 10 L := by
  induction L with
  | nil => simp [digitsToNat]
  | cons d L ih =>
    rw [List.reverse_cons, List.map_append, digitsToNat_append,
      ih (fun x hx => hL x (List.mem_cons_of_mem _ hx)), Nat.ofDigits_cons,
      List.map_cons, List.map_nil]
    have hd : digitsToNat [Nat.digitChar d] = d := by
      show 10 * 0 + digitVal (Nat.digitChar d) = d
      rw [digitVal_digitChar d (hL d (List.mem_cons_self _ _))]
      omega
    rw [hd, List.length_singleton, pow_one]
    ring

lemma digitsToNat_natDigits (n : ℕ) : digitsToNat (natDigits n) = n := by
  rw [natDigits, digitsLE_eq_digits n n le_rfl,
    digitsToNat_map_reverse _ (fun d hd => Nat.digits_lt_base (by norm_num) hd),
    Nat.ofDigits_digits]

lemma natDigits_all_digit (n : ℕ) : ∀ c ∈ natDigits n, c.isDigit = true := by
  intro c hc
  rw [natDigits, digitsLE_eq_digits n n le_rfl] at hc
  rcases List.mem_map.mp hc with ⟨d, hd, rfl⟩
  exact digitChar_isDigit d (Nat.digits_lt_base (by norm_num) (List.mem_reverse.mp hd))

lemma natDigits_ne_nil (n : ℕ) (hn : n ≠ 0) : natDigits n ≠ [] := by
  rw [natDigits, digitsLE_eq_digits n n le_rfl]
  intro h
  rw [List.map_eq_nil_iff, List.reverse_eq_nil_iff] at h
  exact Nat.digits_ne_nil_iff_ne_zero.mpr hn h

lemma isDigit_ne (c x : Char) (hc : c.isDigit = true) (hx : x.isDigit = false) : c ≠ x := by
  intro h
  rw [h, hx] at hc
  exact Bool.false_ne_true hc

lemma decScaleGo_den : ∀ (fuel : ℕ) (q : ℚ),
    (∃ m ≤ fuel, (q * 10 ^ m).den = 1) → (q * 10 ^ decScaleGo fuel q).den = 1 := by
  intro fuel
  induction fuel with
  | zero =>
    rintro q ⟨m, hm, hden⟩
    interval_cases m
    simpa [decScaleGo] using hden
  | succ f ih =>
    rintro q ⟨m, hm, hden⟩
    rw [decScaleGo]
    by_cases h1 : q.den = 1
    · rw [if_pos h1]
      simpa using h1
    · rw [if_neg h1]
      have hm0 : m ≠ 0 := by
        rintro rfl
        rw [pow_zero, mul_one] at hden
        exact h1 hden
      obtain ⟨m', rfl⟩ : ∃ m', m = m' + 1 := ⟨m - 1, by omega⟩
      have hshift : ((q * 10) * 10 ^ m').den = 1 := by
        rw [show (q * 10) * 10 ^ m' = q * 10 ^ (m' + 1) by ring]
        exact hden
      have := ih (q * 10) ⟨m', by omega, hshift⟩
      rw [show q * 10 ^ (decScaleGo f (q * 10) + 1) =
        (q * 10) * 10 ^ decScaleGo f (q * 10) by ring]
      exact this

lemma den_eq_one_as_int (q : ℚ) (h : q.den = 1) : q = ((q.num : ℤ) : ℚ) := by
  conv_lhs => rw [← Rat.num_div_den q]
  rw [h]
  simp

lemma mul_den_eq_num (q : ℚ) : q * q.den = (q.num : ℚ) := by
  have hd : (q.den : ℚ) ≠ 0 := by
    exact_mod_cast q.den_nz
  nth_rewrite 1 [← Rat.num_div_den q]
  rw [div_mul_cancel₀ _ hd]

lemma den_one_of_dvd (q : ℚ) (m : ℕ) (hdvd : q.den ∣ 10 ^ m) : (q * 10 ^ m).den = 1 := by
  obtain ⟨t, ht⟩ := hdvd
  have hcast : (10 : ℚ) ^ m = (q.den : ℚ) * (t : ℚ) := by
    exact_mod_cast congrArg (fun n : ℕ => (n : ℚ)) ht
  have hval : q * 10 ^ m = ((q.num * t : ℤ) : ℚ) := by
    rw [hcast, ← mul_assoc, mul_den_eq_num]
    push_cast
    ring
  rw [hval, Rat.den_intCast]

lemma exists_scale_le_den (q : ℚ) (k : ℕ) (h : (q * 10 ^ k).den = 1) :
    ∃ m ≤ q.den, (q * 10 ^ m).den = 1 := by
  have hd0 : q.den ≠ 0 := q.den_nz
  -- the denominator divides 10 ^ k
  have hint : q.num * 10 ^ k = (q * 10 ^ k).num * q.den := by
    have h1 : ((q * 10 ^ k).num : ℚ) = q * 10 ^ k := (den_eq_one_as_int _ h).symm
    have h2 : (q.num : ℚ) * 10 ^ k = ((q * 10 ^ k).num : ℚ) * q.den := by
      rw [h1, ← mul_den_eq_num q]
      ring
    exact_mod_cast h2
  have hdvdZ : (q.den : ℤ) ∣ q.num * 10 ^ k := ⟨(q * 10 ^ k).num, by rw [hint]; ring⟩
  have hdvdN : q.den ∣ q.num.natAbs * 10 ^ k := by
    have := Int.natAbs_dvd_natAbs.mpr hdvdZ
    simpa [Int.natAbs_mul, Int.natAbs_pow] using this
  have hdvd10 : q.den ∣ 10 ^ k := (q.reduced.symm).dvd_of_dvd_mul_left hdvdN
  -- so it divides 10 ^ m for m the larger of the exponents of 2 and 5,
  -- and that m is at most q.den
  have hfac10 : (10 : ℕ).factorization 2 = 1 ∧ (10 : ℕ).factorization 5 = 1 ∧
      ∀ p, p ≠ 2 → p ≠ 5 → (10 : ℕ).factorization p = 0 := by
    have h10 : (10 : ℕ) = 2 * 5 := by norm_num
    have hmul := Nat.factorization_mul (two_ne_zero) (by norm_num : (5 : ℕ) ≠ 0)
    have h2fac := Nat.Prime.factorization Nat.prime_two
    have h5fac := Nat.Prime.factorization (by norm_num : Nat.Prime 5)
    refine ⟨?_, ?_, ?_⟩
    · rw [h10, hmul]
      simp [h2fac, h5fac, Finsupp.single_apply]
    · rw [h10, hmul]
      simp [h2fac, h5fac, Finsupp.single_apply]
    · intro p hp2 hp5
      rw [h10, hmul]
      simp [h2fac, h5fac, Finsupp.single_apply, hp2.symm, hp5.symm]
  set a := q.den.factorization 2 with ha
  set b := q.den.factorization 5 with hb
  have hdvdm : q.den ∣ 10 ^ max a b := by
    have hle : q.den.factorization ≤ (10 ^ k).factorization :=
      (Nat.factorization_le_iff_dvd hd0
        (pow_ne_zero k (by norm_num : (10 : ℕ) ≠ 0))).mpr hdvd10
    have hother : ∀ p, p ≠ 2 → p ≠ 5 → q.den.factorization p = 0 := by
      intro p hp2 hp5
      have := hle p
      rw [Nat.factorization_pow, Finsupp.smul_apply, hfac10.2.2 p hp2 hp5] at this
      simpa using this
    refine (Nat.factorization_le_iff_dvd hd0
      (pow_ne_zero _ (by norm_num : (10 : ℕ) ≠ 0))).mp ?_
    intro p
    rw [Nat.factorization_pow, Finsupp.smul_apply, smul_eq_mul]
    by_cases hp2 : p = 2
    · subst hp2
      rw [hfac10.1, mul_one, ← ha]
      exact le_max_left a b
    · by_cases hp5 : p = 5
      · subst hp5
        rw [hfac10.2.1, mul_one, ← hb]
        exact le_max_right a b
      · rw [hother p hp2 hp5]
        exact Nat.zero_le _
  refine ⟨max a b, ?_, den_one_of_dvd q _ hdvdm⟩
  have h2 : a < q.den := Nat.factorization_lt 2 hd0
  have h5 : b < q.den := Nat.factorization_lt 5 hd0
  omega

lemma isDigit_bne (c x : Char) (hc : c.isDigit = true) (hx : x.isDigit = false) :
    (c != x) = true := by
  rw [bne_iff_ne]
  exact isDigit_ne c x hc hx

lemma takeWhile_append_not (p : Char → Bool) (A B : List Char) (b : Char)
    (hA : ∀ a ∈ A, p a = true) (hb : p b = false) :
    (A ++ b :: B).takeWhile p = A := by
  induction A with
  | nil =>
    rw [List.nil_append, List.takeWhile_cons, hb]
    rfl
  | cons a A ih =>
    rw [List.cons_append, List.takeWhile_cons, hA a (List.mem_cons_self _ _)]
    rw [ih (fun x hx => hA x (List.mem_cons_of_mem _ hx))]
    simp

lemma dropWhile_append_not (p : Char → Bool) (A B : List Char) (b : Char)
    (hA : ∀ a ∈ A, p a = true) (hb : p b = false) :
    (A ++ b :: B).dropWhile p = b :: B := by
  induction A with
  | nil =>
    rw [List.nil_append, List.dropWhile_cons, hb]
    rfl
  | cons a A ih =>
    rw [List.cons_append, List.dropWhile_cons, hA a (List.mem_cons_self _ _)]
    exact ih (fun x hx => hA x (List.mem_cons_of_mem _ hx))

lemma firstRun_all (l : List Char) (hne : l ≠ []) (hall : ∀ c ∈ l, isPriceChar c = true) :
    firstRun l = some l := by
  cases l with
  | nil => exact absurd rfl hne
  | cons c cs =>
    rw [firstRun, if_pos (hall c (List.mem_cons_self _ _)),
      List.takeWhile_eq_self_iff.mpr (fun x hx => hall x (List.mem_cons_of_mem _ hx))]

lemma dot_not_mem_digits (A : List Char) (hA : ∀ c ∈ A, c.isDigit = true) : '.' ∉ A := by
  intro h
  have := hA '.' h
  exact Bool.false_ne_true this

lemma digitsToNat_replicate_zero (m : ℕ) : digitsToNat (List.replicate m '0') = 0 := by
  induction m with
  | zero => rfl
  | succ m ih =>
    rw [List.replicate_succ]
    show List.foldl (fun a c => 10 * a + digitVal c) (10 * 0 + digitVal '0') _ = 0
    rw [show (10 * 0 + digitVal '0') = 0 from rfl]
    exact ih

/-- Parsing a rendered `I.F` string of decimal digits recovers its
decimal value. -/
lemma parse_digit_dot_list (I F : List Char)
    (hI : ∀ c ∈ I, c.isDigit = true) (hF : ∀ c ∈ F, c.isDigit = true)
    (hIne : I ≠ []) :
    parse_price_text ⟨I ++ '.' :: F⟩ =
      some ((digitsToNat I : ℚ) + (digitsToNat F : ℚ) / 10 ^ F.length) := by
  have hall : ∀ c ∈ I ++ '.' :: F, c.isDigit = true ∨ c = '.' := by
    intro c hc
    rcases List.mem_append.mp hc with h | h
    · exact Or.inl (hI c h)
    · rcases List.mem_cons.mp h with h | h
      · exact Or.inr h
      · exact Or.inl (hF c h)
  have hne_str : ¬ (⟨I ++ '.' :: F⟩ : String) = "" := by
    intro h
    have hdata : I ++ '.' :: F = [] := congrArg String.data h
    simp at hdata
  have hstrip : stripCurrency ⟨I ++ '.' :: F⟩ = I ++ '.' :: F := by
    show (I ++ '.' :: F).filter (fun c => c != '₹') = I ++ '.' :: F
    rw [List.filter_eq_self]
    intro c hc
    rcases hall c hc with h | h
    · exact isDigit_bne c '₹' h (by decide)
    · rw [h]; decide
  have hrun : firstRun (stripCurrency ⟨I ++ '.' :: F⟩) = some (I ++ '.' :: F) := by
    rw [hstrip]
    refine firstRun_all _ (by simp) ?_
    intro c hc
    rcases hall c hc with h | h
    · rw [isPriceChar, h, Bool.true_or, Bool.true_or]
    · rw [h]; decide
  rw [parse_price_text_some_run _ _ hne_str hrun]
  have hfil : (I ++ '.' :: F).filter (fun c => c != ',') = I ++ '.' :: F := by
    rw [List.filter_eq_self]
    intro c hc
    rcases hall c hc with h | h
    · exact isDigit_bne c ',' h (by decide)
    · rw [h]; decide
  rw [hfil]
  have hguard : ((I ++ '.' :: F).all (fun c => c.isDigit || c == '.') = true) ∧
      ((I ++ '.' :: F).any (fun c => c.isDigit) = true) ∧
      (I ++ '.' :: F).count '.' ≤ 1 := by
    refine ⟨?_, ?_, ?_⟩
    · rw [List.all_eq_true]
      intro c hc
      rcases hall c hc with h | h
      · rw [h, Bool.true_or]
      · rw [h]; decide
    · rw [List.any_eq_true]
      obtain ⟨c₀, hc₀⟩ := List.exists_mem_of_ne_nil I hIne
      exact ⟨c₀, List.mem_append_left _ hc₀, hI c₀ hc₀⟩
    · rw [List.count_append, List.count_cons_self,
        List.count_eq_zero.mpr (dot_not_mem_digits I hI),
        List.count_eq_zero.mpr (dot_not_mem_digits F hF)]
  unfold floatOfRun
  rw [if_pos hguard]
  have htake : (I ++ '.' :: F).takeWhile (fun c => c != '.') = I :=
    takeWhile_append_not _ I F '.' (fun a ha => isDigit_bne a '.' (hI a ha) (by decide))
      (by decide)
  have hdrop : (I ++ '.' :: F).dropWhile (fun c => c != '.') = '.' :: F :=
    dropWhile_append_not _ I F '.' (fun a ha => isDigit_bne a '.' (hI a ha) (by decide))
      (by decide)
  simp only [runValue, htake, hdrop, List.drop_succ_cons, List.drop_zero]

/-- Round-trip of `posRender` through the normalizer. -/
lemma posRender_parse (N s : ℕ) (hN : N ≠ 0) :
    parse_price_text ⟨posRender N s⟩ = some ((N : ℚ) / 10 ^ s) := by
  by_cases hs : s = 0
  · subst hs
    rw [posRender, if_pos rfl]
    have := parse_digit_dot_list (natDigits N) ['0'] (natDigits_all_digit N)
      (by intro c hc; rcases List.mem_singleton.mp hc with rfl; decide)
      (natDigits_ne_nil N hN)
    rw [show (natDigits N ++ ['.', '0']) = natDigits N ++ '.' :: ['0'] from rfl, this,
      digitsToNat_natDigits, show digitsToNat ['0'] = 0 from rfl]
    norm_num
  · simp only [posRender, if_neg hs]
    set padded := List.replicate (s + 1 - (natDigits N).length) '0' ++ natDigits N with hpad
    have hpad_digits : ∀ c ∈ padded, c.isDigit = true := by
      intro c hc
      rw [hpad] at hc
      rcases List.mem_append.mp hc with h | h
      · rcases List.eq_of_mem_replicate h with rfl
        decide
      · exact natDigits_all_digit N c h
    have hP : padded.length = (s + 1 - (natDigits N).length) + (natDigits N).length := by
      rw [hpad, List.length_append, List.length_replicate]
    have hPs : s + 1 ≤ padded.length := by omega
    have hlenI : (padded.take (padded.length - s)).length = padded.length - s := by
      rw [List.length_take]
      omega
    have hlenF : (padded.drop (padded.length - s)).length = s := by
      rw [List.length_drop]
      omega
    have hIne : padded.take (padded.length - s) ≠ [] := by
      intro h
      have := congrArg List.length h
      rw [hlenI] at this
      simp at this
      omega
    have hIdig : ∀ c ∈ padded.take (padded.length - s), c.isDigit = true :=
      fun c hc => hpad_digits c (List.mem_of_mem_take hc)
    have hFdig : ∀ c ∈ padded.drop (padded.length - s), c.isDigit = true :=
      fun c hc => hpad_digits c (List.mem_of_mem_drop hc)
    rw [parse_digit_dot_list _ _ hIdig hFdig hIne]
    have hsplitN : digitsToNat (padded.take (padded.length - s)) * 10 ^ s +
        digitsToNat (padded.drop (padded.length - s)) = N := by
      have h1 : digitsToNat padded = N := by
        rw [hpad, digitsToNat_append, digitsToNat_replicate_zero, digitsToNat_natDigits]
        ring
      have h2 : digitsToNat padded =
          digitsToNat (padded.take (padded.length - s)) * 10 ^
            (padded.drop (padded.length - s)).length +
          digitsToNat (padded.drop (padded.length - s)) := by
        conv_lhs => rw [← List.take_append_drop (padded.length - s) padded]
        exact digitsToNat_append _ _
      rw [h1, hlenF] at h2
      omega
    have hcast : ((digitsToNat (padded.take (padded.length - s)) : ℚ) * 10 ^ s +
        (digitsToNat (padded.drop (padded.length - s)) : ℚ)) = (N : ℚ) := by
      exact_mod_cast congrArg (fun n : ℕ => (n : ℚ)) hsplitN
    rw [hlenF]
    congr 1
    have h10 : (10 : ℚ) ^ s ≠ 0 := by positivity
    field_simp
    linarith [hcast]

/-- Round-trip of `posString`: parsing the positional rendering of a
positive exact decimal recovers it. -/
lemma posString_roundtrip (q : ℚ) (hq : 0 < q)
    (hdec : (q * 10 ^ decScale q).den = 1) :
    parse_price_text ⟨posString q⟩ = some q := by
  have hqpos : 0 < q * 10 ^ decScale q := by positivity
  have hNval : (((q * 10 ^ decScale q).num.toNat : ℕ) : ℚ) = q * 10 ^ decScale q := by
    have h1 : ((q * 10 ^ decScale q).num : ℚ) = q * 10 ^ decScale q :=
      (den_eq_one_as_int _ hdec).symm
    have h3 : ((q * 10 ^ decScale q).num.toNat : ℤ) = (q * 10 ^ decScale q).num :=
      Int.toNat_of_nonneg (le_of_lt (Rat.num_pos.mpr hqpos))
    calc (((q * 10 ^ decScale q).num.toNat : ℕ) : ℚ)
        = (((q * 10 ^ decScale q).num.toNat : ℤ) : ℚ) := by push_cast; ring
      _ = ((q * 10 ^ decScale q).num : ℚ) := by exact_mod_cast h3
      _ = q * 10 ^ decScale q := h1
  have hN0 : (q * 10 ^ decScale q).num.toNat ≠ 0 := by
    intro h
    apply ne_of_gt hqpos
    rw [← hNval, h, Nat.cast_zero]
  rw [posString, posRender_parse _ _ hN0, hNval]
  congr 1
  have h10 : (10 : ℚ) ^ decScale q ≠ 0 := by positivity
  field_simp

/-- Outputs of `parse_price_text` are non-negative exact decimals. -/
lemma parse_price_decimal (x : String) (v : ℚ) (h : parse_price_text x = some v) :
    0 ≤ v ∧ ∃ k, (v * 10 ^ k).den = 1 := by
  unfold parse_price_text at h
  by_cases hx : x = ""
  · rw [if_pos hx] at h
    exact absurd h (by simp)
  · rw [if_neg hx] at h
    rcases hrun : firstRun (stripCurrency x) with _ | raw
    · simp only [hrun] at h
      exact absurd h (by simp)
    · simp only [hrun] at h
      unfold floatOfRun at h
      split_ifs at h with hg
      rw [Option.some_inj] at h
      simp only [runValue] at h
      set w := raw.filter (fun c => c != ',') with hw
      set F := (w.dropWhile (fun c => c != '.')).drop 1 with hF
      set I := w.takeWhile (fun c => c != '.') with hI
      constructor
      · rw [← h]
        positivity
      · refine ⟨F.length, ?_⟩
        have hval : v * 10 ^ F.length =
            ((digitsToNat I * 10 ^ F.length + digitsToNat F : ℕ) : ℚ) := by
          rw [← h]
          have h10 : (10 : ℚ) ^ F.length ≠ 0 := by positivity
          push_cast
          field_simp
        rw [hval, Rat.den_natCast]

lemma parse_zero_string : parse_price_text "0.0" = some 0 := by
  rw [show ("0.0" : String) = ⟨['0'] ++ '.' :: ['0']⟩ from by decide]
  rw [parse_digit_dot_list ['0'] ['0'] (by decide) (by decide) (by decide),
    show digitsToNat ['0'] = 0 from rfl]
  norm_num

/-- C8, amended: the round-trip `normalize (str (normalize x)) =
normalize x` holds whenever the parsed value is zero or lies in
`[10^-4, 10^16)` — exactly the range in which CPython's `str` uses
positional notation.  (Outside it, `str` switches to exponent notation
and the round-trip fails; see the counterexample.) -/
theorem C8_amended_roundtrip (x : String) (v : ℚ)
    (hparse : parse_price_text x = some v)
    (hrange : v = 0 ∨ (1 / 10000 ≤ v ∧ v < 10 ^ 16)) :
    parse_price_text (strFloat v) = some v := by
  obtain ⟨hv0, k, hk⟩ := parse_price_decimal x v hparse
  rcases hrange with rfl | ⟨hlo, hhi⟩
  · rw [strFloat, if_pos rfl]
    exact parse_zero_string
  · have hvpos : 0 < v := lt_of_lt_of_le (by norm_num) hlo
    rw [strFloat, if_neg (ne_of_gt hvpos), if_neg (not_lt.mpr (le_of_lt hvpos)), posOrSci,
      if_pos ⟨hlo, hhi⟩]
    obtain ⟨m, hm, hmden⟩ := exists_scale_le_den v k hk
    exact posString_roundtrip v hvpos (decScaleGo_den v.den v ⟨m, hm, hmden⟩)

theorem C8_amended_witness : parse_price_text (strFloat (2399 / 2 : ℚ)) = some (2399 / 2 : ℚ) :=
  C8_amended_roundtrip "₹ 1,199.50" (2399 / 2) parse_rupee_1199_50
    (Or.inr ⟨by norm_num, by norm_num⟩)

lemma decScaleGo_step (fuel : ℕ) (q : ℚ) (h : ¬ q.den = 1) :
    decScaleGo (fuel + 1) q = decScaleGo fuel (q * 10) + 1 := by
  rw [decScaleGo, if_neg h]

lemma decScaleGo_den_one (fuel : ℕ) (q : ℚ) (h : q.den = 1) : decScaleGo fuel q = 0 := by
  cases fuel with
  | zero => rfl
  | succ f => rw [decScaleGo, if_pos h]

lemma decScale_small : decScale (1 / 100000 : ℚ) = 5 := by
  have hden : (1 / 100000 : ℚ).den = 100000 := by norm_num
  rw [decScale, hden]
  rw [show (100000 : ℕ) = 99999 + 1 from rfl,
    decScaleGo_step _ _ (by rw [hden]; norm_num),
    show (1 / 100000 : ℚ) * 10 = 1 / 10000 from by norm_num]
  rw [show (99999 : ℕ) = 99998 + 1 from rfl,
    decScaleGo_step _ _ (by norm_num),
    show (1 / 10000 : ℚ) * 10 = 1 / 1000 from by norm_num]
  rw [show (99998 : ℕ) = 99997 + 1 from rfl,
    decScaleGo_step _ _ (by norm_num),
    show (1 / 1000 : ℚ) * 10 = 1 / 100 from by norm_num]
  rw [show (99997 : ℕ) = 99996 + 1 from rfl,
    decScaleGo_step _ _ (by norm_num),
    show (1 / 100 : ℚ) * 10 = 1 / 10 from by norm_num]
  rw [show (99996 : ℕ) = 99995 + 1 from rfl,
    decScaleGo_step _ _ (by norm_num),
    show (1 / 10 : ℚ) * 10 = 1 from by norm_num]
  rw [decScaleGo_den_one _ _ (by norm_num)]

lemma strFloat_small : strFloat (1 / 100000 : ℚ) = "1e-05" := by
  have hval : (1 / 100000 : ℚ) * 10 ^ 5 = 1 := by norm_num
  rw [strFloat, if_neg (by norm_num), if_neg (by norm_num), posOrSci,
    if_neg (by rintro ⟨h, -⟩; norm_num at h)]
  simp only [sciString, decScale_small, hval]
  decide

lemma parse_point00001 : parse_price_text ".00001" = some (1 / 100000 : ℚ) := by
  rw [parse_price_text_some_run _ (".00001".data) (by decide) (by decide)]
  have hfil : ".00001".data.filter (fun c => c != ',') = ".00001".data := by decide
  rw [hfil]
  unfold floatOfRun
  rw [if_pos (by decide)]
  have h1 : ".00001".data.takeWhile (fun c => c != '.') = [] := by decide
  have h2 : (".00001".data.dropWhile (fun c => c != '.')).drop 1 = "00001".data := by decide
  simp only [runValue, h1, h2]
  rw [show digitsToNat ([] : List Char) = 0 from rfl,
    show digitsToNat "00001".data = 1 from by decide,
    show ("00001".data).length = 5 from rfl]
  norm_num

lemma parse_1e05 : parse_price_text "1e-05" = some 1 := by
  rw [parse_price_text_some_run _ ("1".data) (by decide) (by decide)]
  have hfil : "1".data.filter (fun c => c != ',') = "1".data := by decide
  rw [hfil]
  unfold floatOfRun
  rw [if_pos (by decide)]
  have h1 : "1".data.takeWhile (fun c => c != '.') = "1".data := by decide
  have h2 : ("1".data.dropWhile (fun c => c != '.')).drop 1 = [] := by decide
  simp only [runValue, h1, h2]
  rw [show digitsToNat "1".data = 1 from by decide,
    show digitsToNat ([] : List Char) = 0 from rfl]
  norm_num

/-- C8, counterexample: the input `".00001"` normalizes to `1/100000`
(`1e-05`); CPython's `str` renders that value in exponent notation as
`"1e-05"`, which re-normalizes to `1` (the regex run stops at the `e`),
so `normalize (str (normalize x)) ≠ normalize x` — the claimed
idempotence fails outside the positional range. -/
theorem C8_counterexample :
    parse_price_text ".00001" = some (1 / 100000 : ℚ) ∧
    strFloat (1 / 100000 : ℚ) = "1e-05" ∧
    parse_price_text "1e-05" = some 1 ∧
    parse_price_text (strFloat (1 / 100000 : ℚ)) ≠ parse_price_text ".00001" := by
  refine ⟨parse_point00001, strFloat_small, parse_1e05, ?_⟩
  rw [strFloat_small, parse_1e05, parse_point00001]
  intro h
  rw [Option.some_inj] at h
  norm_num at h

end AmazonScrapper
